import Mathlib

/-!
Verification of the torch-liquidation-kit keeper bot.

The definitions below are a shallow embedding of the program's source
(`src/clawhub/lib/kit/index.js`, `src/clawhub/lib/kit/config.js`,
`src/packages/bot/src/utils.ts`).  Asynchronous external calls are
modelled by an explicit completion behaviour (`AsyncOp`); the run loop
and scan cycle are modelled as pure functions producing the trace of
emitted log records and liquidation attempts.
-/

namespace TorchKit

/-! ## Log levels and the logger (`utils.ts`, `createLogger`) -/

inductive LogLevel where
  | debug
  | info
  | warn
  | error
deriving DecidableEq, Repr

/-- `LEVEL_ORDER` from `utils.ts`: `['debug', 'info', 'warn', 'error']`. -/
def LEVEL_ORDER : List LogLevel := [.debug, .info, .warn, .error]

/-- `LEVEL_ORDER.indexOf(level)` — each level occurs exactly once, so the
JS `indexOf` is this total function. -/
def levelIdx : LogLevel → Nat
  | .debug => 0
  | .info => 1
  | .warn => 2
  | .error => 3

/-- `level.toUpperCase()` for the four level strings. -/
def levelUpper : LogLevel → String
  | .debug => "DEBUG"
  | .info => "INFO"
  | .warn => "WARN"
  | .error => "ERROR"

/-- JS `String.prototype.padEnd(n)` with space padding. -/
def padEnd (s : String) (n : Nat) : String :=
  s ++ String.mk (List.replicate (n - s.length) ' ')

/-- The single line printed by the logger body:
`console.log(`[${ts}] ${tag} ${msg}`)` with `tag = level.toUpperCase().padEnd(5)`. -/
def logLine (ts : String) (level : LogLevel) (msg : String) : String :=
  "[" ++ ts ++ "] " ++ padEnd (levelUpper level) 5 ++ " " ++ msg

/-- `createLogger` from `utils.ts`: the returned `log` function prints one
line when `LEVEL_ORDER.indexOf(level) >= minIdx` and prints nothing
otherwise.  The timestamp `ts` (a wall-clock substring in the source) is
taken as a parameter. -/
def createLogger (minLevel : LogLevel) (ts : String) (level : LogLevel)
    (msg : String) : Option String :=
  if levelIdx level < levelIdx minLevel then none
  else some (logLine ts level msg)

/-! ## Base-58 decoding (`utils.ts`, `decodeBase58`) -/

/-- The base-58 alphabet string `B58` from `utils.ts`. -/
def B58 : String := "123456789ABCDEFGHJKLMNPQRSTUVWXYZabcdefghijkmnopqrstuvwxyz"

/-- `B58.indexOf(c)`: `some` index when the character occurs, `none` when
the JS call returns `-1`. -/
def b58Digit (c : Char) : Option Nat :=
  if c ∈ B58.toList then some (B58.toList.indexOf c) else none

/-- The JS loop `while (carry > 0) { result.push(carry & 0xff); carry >>= 8 }`:
little-endian base-256 digits of `carry`. -/
def pushCarry (c : Nat) : List Nat :=
  if h : c = 0 then [] else (c % 256) :: pushCarry (c / 256)
decreasing_by exact Nat.div_lt_self (Nat.pos_of_ne_zero h) (by omega)

/-- One outer-loop iteration over the current little-endian `result`:
`for j { carry += result[j] * 58; result[j] = carry & 0xff; carry >>= 8 }`
followed by the `while (carry > 0)` push loop. -/
def mulAddDigits : List Nat → Nat → List Nat
  | [], carry => pushCarry carry
  | d :: ds, carry => ((carry + d * 58) % 256) :: mulAddDigits ds ((carry + d * 58) / 256)

/-- The character loop of `decodeBase58`: each character multiplies the
accumulated little-endian value by 58 and adds the character's digit;
an alphabet miss throws. -/
def decodeCore : List Char → List Nat → Except String (List Nat)
  | [], acc => .ok acc
  | c :: cs, acc =>
    match b58Digit c with
    | none => .error ("invalid base58 character: " ++ c.toString)
    | some d => decodeCore cs (mulAddDigits acc d)

/-- The count of leading `'1'` characters of the input. -/
def countLeadingOnes : List Char → Nat
  | [] => 0
  | c :: cs => if c = '1' then countLeadingOnes cs + 1 else 0

/-- `decodeBase58` from `utils.ts`: decode the base-58 digits into a
little-endian byte list, append one `0` byte per leading `'1'`, and
reverse into big-endian order.  The JS `throw` is an `Except.error`. -/
def decodeBase58 (s : String) : Except String (List Nat) :=
  match decodeCore s.toList [] with
  | .error e => .error e
  | .ok acc => .ok ((acc ++ List.replicate (countLeadingOnes s.toList) 0).reverse)

/-- The base-58 integer value of a string of valid digits
(big-endian positional interpretation, the value `decodeBase58` accumulates). -/
def b58Value (s : String) : Nat :=
  s.toList.foldl (fun v c => v * 58 + (b58Digit c).getD 0) 0

/-- Big-endian base-256 byte sequence of a natural number (empty for `0`,
no leading zero byte): the reversal of its little-endian digits. -/
def natBytesBE (n : Nat) : List Nat := (pushCarry n).reverse

/-- Value of a little-endian base-256 digit list. -/
def leVal : List Nat → Nat
  | [] => 0
  | d :: ds => d + 256 * leVal ds

/-- Every entry of the list is a byte. -/
def IsBytes (l : List Nat) : Prop := ∀ x ∈ l, x < 256

/-- The most significant digit (the last, in little-endian order) is nonzero
— the representation carries no leading zero byte. -/
def Canon (l : List Nat) : Prop := ∀ x, l.getLast? = some x → x ≠ 0

/-! ## Configuration loading (`config.js`, `loadConfig`) -/

/-- JS whitespace skipped by `parseInt` (the characters relevant to env strings). -/
def isJsWhitespace (c : Char) : Bool :=
  c == ' ' || c == '\t' || c == '\n' || c == '\r'

/-- Decimal value of a digit run. -/
def digitsVal (l : List Char) : Nat :=
  l.foldl (fun v c => v * 10 + (c.toNat - '0'.toNat)) 0

/-- JS `parseInt(s, 10)`: skip leading whitespace, take an optional sign and
the maximal run of leading decimal digits; `NaN` (here `none`) when that
run is empty. -/
def parseIntJs (s : String) : Option Int :=
  let l := s.toList.dropWhile isJsWhitespace
  match l with
  | '-' :: t =>
    let digits := t.takeWhile Char.isDigit
    if digits.isEmpty then none else some (-(digitsVal digits : Int))
  | '+' :: t =>
    let digits := t.takeWhile Char.isDigit
    if digits.isEmpty then none else some (digitsVal digits : Int)
  | t =>
    let digits := t.takeWhile Char.isDigit
    if digits.isEmpty then none else some (digitsVal digits : Int)

/-- The relevant part of `process.env`: each variable either absent or a string. -/
structure ProcEnv where
  RPC_URL : Option String
  VAULT_CREATOR : Option String
  SCAN_INTERVAL_MS : Option String
  LOG_LEVEL : Option String

/-- The `BotConfig` record returned by `loadConfig` (`config.js` in `lib/kit`
has no private-key field). -/
structure BotConfig where
  rpcUrl : String
  vaultCreator : String
  scanIntervalMs : Int
  logLevel : LogLevel
deriving DecidableEq, Repr

/-- `LOG_LEVELS.includes(s)` as a partial parse: `some` of the level when the
string is one of the four level names. -/
def levelOfString (s : String) : Option LogLevel :=
  if s = "debug" then some .debug
  else if s = "info" then some .info
  else if s = "warn" then some .warn
  else if s = "error" then some .error
  else none

/-- `loadConfig` from `config.js`.  A JS env var is falsy exactly when it is
absent or the empty string, so both are mapped to the required-var error;
`parseInt(env ?? '30000', 10)` with the `isNaN || < 5000` guard and the
`LOG_LEVELS.includes` guard follow the source. -/
def loadConfig (env : ProcEnv) : Except String BotConfig :=
  let rpcUrl := env.RPC_URL.getD ""
  if rpcUrl = "" then .error "RPC_URL env var is required"
  else
    let vaultCreator := env.VAULT_CREATOR.getD ""
    if vaultCreator = "" then
      .error "VAULT_CREATOR env var is required (vault creator pubkey)"
    else
      match parseIntJs (env.SCAN_INTERVAL_MS.getD "30000") with
      | none => .error "SCAN_INTERVAL_MS must be a number >= 5000"
      | some n =>
        if n < 5000 then .error "SCAN_INTERVAL_MS must be a number >= 5000"
        else
          match levelOfString (env.LOG_LEVEL.getD "info") with
          | none => .error "LOG_LEVEL must be one of: debug, info, warn, error"
          | some lvl => .ok ⟨rpcUrl, vaultCreator, n, lvl⟩

/-! ## Data model (`index.js`, torchsdk result shapes) -/

/-- A discovered tradable unit (`token` from `getTokens`): only the fields
the bot reads. -/
structure Token where
  mint : String
  symbol : String
deriving DecidableEq, Repr

/-- The SDK's position health classification. -/
inductive Health where
  | liquidatable
  | at_risk
  | healthy
deriving DecidableEq, Repr

/-- A loan position as read by the bot from `getAllLoanPositions`. -/
structure Position where
  borrower : String
  health : Health
  total_owed : Nat
  current_ltv_bps : Option Nat
deriving DecidableEq, Repr

/-- Errors surfaced by external calls: an ordinary rejection with a message,
or the timeout wrapper's own error. -/
inductive JsError where
  | err (msg : String)
  | timeout (label : String)
deriving DecidableEq, Repr

deriving instance DecidableEq for Except

/-- `err.message` as read in the catch blocks.  The timeout message text is
modelled from the spec (`Timeout` error carrying the label); the wrapper's
implementation is not in the sources. -/
def JsError.message : JsError → String
  | .err m => m
  | .timeout l => "Timeout: " ++ l

/-- Completion behaviour of one asynchronous external call: it either
settles at time `t` (resolving or rejecting), or never settles. -/
inductive AsyncOp (α : Type) where
  | completes (t : Nat) (r : Except JsError α)
  | never

/-- Modelled from the spec: the timeout wrapper (§4.1) is absent from the
sources (only its call sites in `index.js` remain).  Given an in-flight
operation and a label it returns the operation's result if it settles
before the fixed deadline of 30 time units, and otherwise fails with a
`Timeout` error carrying the label. -/
def withTimeout {α : Type} (op : AsyncOp α) (label : String) : Except JsError α :=
  match op with
  | .completes t r => if t < 30 then r else .error (.timeout label)
  | .never => .error (.timeout label)

/-- Result of running a (possibly non-terminating) awaited computation:
either it completes with a value, or it blocks forever. -/
inductive RunResult (α : Type) where
  | done (a : α)
  | hangs
deriving DecidableEq, Repr

/-- A built liquidation transaction: `signSerialize` is the outcome of
`transaction.sign(agentKeypair)` followed by `transaction.serialize()` —
a signing throw or the raw signed bytes. -/
structure Tx where
  signSerialize : Except JsError (List Nat)
deriving DecidableEq

/-- The parameter object passed to `buildLiquidateTransaction`. -/
structure BuildParams where
  mint : String
  liquidator : String
  borrower : String
  vault : String
deriving DecidableEq, Repr

/-- The query object passed to `getTokens`. -/
structure GetTokensParams where
  status : String
  sort : String
  limit : Nat
deriving DecidableEq, Repr

/-- The external world for one scan cycle: the completion behaviour of each
remote call the cycle can make. -/
structure Env where
  getTokens : GetTokensParams → AsyncOp (List Token)
  getAllLoanPositions : String → AsyncOp (List Position)
  buildLiquidateTransaction : BuildParams → AsyncOp (Tx × String)
  sendRawTransaction : List Nat → AsyncOp String
  confirmTransaction : String → String → AsyncOp Unit

/-- Observable trace events of a cycle: a `log(level, msg)` call, entry into
the per-unit loop body, entry into the per-position build-and-execute
block (one executor invocation), and the inter-cycle sleep. -/
inductive Ev where
  | log (lvl : LogLevel) (msg : String)
  | unit (mint : String)
  | attempt (mint : String) (borrower : String)
  | sleep (ms : Int)
deriving DecidableEq, Repr

/-! ## Message formatting (`utils.ts` `sol`/`bpsToPercent`, `index.js` templates) -/

def LAMPORTS_PER_SOL : Nat := 1000000000

/-- Decimal digits of `n` left-padded with `'0'` to the given width. -/
def padZeros (n width : Nat) : String :=
  let s := toString n
  String.mk (List.replicate (width - s.length) '0') ++ s

/-- `sol` from `utils.ts`: `(lamports / LAMPORTS_PER_SOL).toFixed(4)`,
modelled as decimal rounding (half up) to four fractional digits. -/
def sol (lamports : Nat) : String :=
  let q := (lamports + 50000) / 100000
  toString (q / 10000) ++ "." ++ padZeros (q % 10000) 4

/-- `bpsToPercent` from `utils.ts`: `(bps / 100).toFixed(2) + '%'`, exact in
decimal since a basis-point count has two fractional percent digits. -/
def bpsToPercent (bps : Nat) : String :=
  toString (bps / 100) ++ "." ++ padZeros (bps % 100) 2 ++ "%"

/-- The `LIQUIDATABLE` info line of `index.js`. -/
def liquidatableMsg (token : Token) (pos : Position) : String :=
  "LIQUIDATABLE | " ++ token.symbol ++ " | borrower=" ++ pos.borrower.take 8 ++
    "... | LTV=" ++
    (match pos.current_ltv_bps with
      | some b => bpsToPercent b
      | none => "?") ++
    " | owed=" ++ sol pos.total_owed ++ " SOL"

/-- The `LIQUIDATION FAILED` warning line of `index.js`. -/
def failMsg (token : Token) (pos : Position) (e : JsError) : String :=
  "LIQUIDATION FAILED | " ++ token.symbol ++ " | " ++ pos.borrower.take 8 ++
    ("... | " ++ e.message)

/-- The `LIQUIDATED` info line of `index.js`. -/
def liquidatedMsg (token : Token) (pos : Position) (signature message : String) : String :=
  "LIQUIDATED | " ++ token.symbol ++ " | borrower=" ++ pos.borrower.take 8 ++
    "... | sig=" ++ signature.take 16 ++ "... | " ++ message

/-! ## The liquidation executor and the scan cycle (`index.js`, `scanAndLiquidate`) -/

/-- The wrapped build step: `withTimeout(buildLiquidateTransaction(connection,
{mint, liquidator, borrower, vault}), 'buildLiquidateTransaction')`. -/
def buildStep (env : Env) (agentPub vaultCreator : String) (token : Token)
    (pos : Position) : Except JsError (Tx × String) :=
  withTimeout
    (env.buildLiquidateTransaction
      ⟨token.mint, agentPub, pos.borrower, vaultCreator⟩)
    "buildLiquidateTransaction"

/-- The body of the per-position `try` block of `index.js`: build (wrapped),
sign, submit (`connection.sendRawTransaction`, awaited directly, without
the wrapper), confirm (wrapped).  Any thrown or rejected step is caught
and yields the single warning record; success yields the single
`LIQUIDATED` info record.  A submission that never settles blocks the
`await` forever. -/
def executeLiquidation (env : Env) (agentPub vaultCreator : String) (token : Token)
    (pos : Position) : RunResult (List Ev) :=
  match buildStep env agentPub vaultCreator token pos with
  | .error e => .done [.log .warn (failMsg token pos e)]
  | .ok (tx, message) =>
    match tx.signSerialize with
    | .error e => .done [.log .warn (failMsg token pos e)]
    | .ok raw =>
      match env.sendRawTransaction raw with
      | .never => .hangs
      | .completes _ res =>
        match res with
        | .error e => .done [.log .warn (failMsg token pos e)]
        | .ok signature =>
          match withTimeout (env.confirmTransaction signature agentPub)
              "confirmTransaction" with
          | .error e => .done [.log .warn (failMsg token pos e)]
          | .ok _ => .done [.log .info (liquidatedMsg token pos signature message)]

/-- The inner position loop of `index.js`: `break` on the first position whose
`health` is not `'liquidatable'`; otherwise log the `LIQUIDATABLE` line,
invoke the executor (the `Ev.attempt` marker), and continue with the rest
regardless of the attempt's outcome. -/
def processPositions (env : Env) (agentPub vaultCreator : String) (token : Token) :
    List Position → RunResult (List Ev)
  | [] => .done []
  | pos :: rest =>
    if pos.health ≠ Health.liquidatable then .done []
    else
      match executeLiquidation env agentPub vaultCreator token pos with
      | .hangs => .hangs
      | .done evs =>
        match processPositions env agentPub vaultCreator token rest with
        | .hangs => .hangs
        | .done evs2 =>
          .done (Ev.log .info (liquidatableMsg token pos) ::
            Ev.attempt token.mint pos.borrower :: (evs ++ evs2))

/-- The wrapped per-unit position retrieval:
`withTimeout(getAllLoanPositions(connection, token.mint), 'getAllLoanPositions')`. -/
def positionsStep (env : Env) (token : Token) : Except JsError (List Position) :=
  withTimeout (env.getAllLoanPositions token.mint) "getAllLoanPositions"

/-- One iteration of the token loop of `index.js` (the `Ev.unit` marker records
entry): a failing retrieval is caught (`catch { continue }`), an empty
position list is skipped, otherwise the debug line is logged and the
positions are walked. -/
def processToken (env : Env) (agentPub vaultCreator : String) (token : Token) :
    RunResult (List Ev) :=
  match positionsStep env token with
  | .error _ => .done [Ev.unit token.mint]
  | .ok positions =>
    if positions.length = 0 then .done [Ev.unit token.mint]
    else
      match processPositions env agentPub vaultCreator token positions with
      | .hangs => .hangs
      | .done evs =>
        .done (Ev.unit token.mint ::
          Ev.log .debug (token.symbol ++ " — " ++ toString positions.length ++
            " active loans") :: evs)

/-- The token loop, in discovery order. -/
def processTokens (env : Env) (agentPub vaultCreator : String) :
    List Token → RunResult (List Ev)
  | [] => .done []
  | t :: ts =>
    match processToken env agentPub vaultCreator t with
    | .hangs => .hangs
    | .done evs =>
      match processTokens env agentPub vaultCreator ts with
      | .hangs => .hangs
      | .done rest => .done (evs ++ rest)

/-- The query object `index.js` passes to `getTokens`:
`{ status: 'migrated', sort: 'volume', limit: 50 }`. -/
def getTokensArgs : GetTokensParams := ⟨"migrated", "volume", 50⟩

/-- `scanAndLiquidate` from `index.js`: wrapped discovery (whose error
propagates to the caller uncaught), the discovery-count debug line, then
the token loop. -/
def scanAndLiquidate (env : Env) (agentPub vaultCreator : String) :
    RunResult (Except JsError (List Ev)) :=
  match withTimeout (env.getTokens getTokensArgs) "getTokens" with
  | .error e => .done (.error e)
  | .ok tokens =>
    match processTokens env agentPub vaultCreator tokens with
    | .hangs => .hangs
    | .done evs =>
      .done (.ok (Ev.log .debug ("discovered " ++ toString tokens.length ++
        " migrated tokens") :: evs))

/-! ## The run loop and startup preflight (`index.js`, `main`) -/

/-- The `try`/`catch` around one cycle in `main`'s `while (true)` loop:
the cycle-start debug line, the cycle, then either the cycle-end debug
line or the error-level `scan cycle error` line. -/
def runCycle (env : Env) (agentPub vaultCreator : String) : RunResult (List Ev) :=
  match scanAndLiquidate env agentPub vaultCreator with
  | .hangs => .hangs
  | .done r =>
    .done (Ev.log .debug "--- scan cycle start ---" ::
      match r with
      | .ok evs => evs ++ [Ev.log .debug "--- scan cycle end ---"]
      | .error e => [Ev.log .error ("scan cycle error: " ++ e.message)])

/-- `n` iterations of the scan loop.  `envs k` is the external world during
cycle `k`; after each cycle the loop awaits `setTimeout(scanIntervalMs)`
(the `Ev.sleep` marker) and continues — it has no exit path. -/
def runLoop (envs : Nat → Env) (agentPub vaultCreator : String) (intervalMs : Int) :
    Nat → RunResult (List Ev)
  | 0 => .done []
  | n + 1 =>
    match runCycle (envs 0) agentPub vaultCreator with
    | .hangs => .hangs
    | .done evs =>
      match runLoop (fun k => envs (k + 1)) agentPub vaultCreator intervalMs n with
      | .hangs => .hangs
      | .done rest => .done (evs ++ Ev.sleep intervalMs :: rest)

/-- The vault record read during preflight (fields the bot uses). -/
structure Vault where
  authority : String
  sol_balance : Option Nat
deriving DecidableEq, Repr

/-- The external world for the startup preflight checks. -/
structure PreEnv where
  getVault : String → AsyncOp (Option Vault)
  getVaultForWallet : String → AsyncOp (Option Unit)

/-- The `console.log` lines printed when the linkage check fails (braces of
the source template appear as `\x7b`/`\x7d`). -/
def linkInstructions (vaultCreator agentPub : String) : List String :=
  ["",
   "--- ACTION REQUIRED ---",
   "agent wallet is NOT linked to the vault.",
   "link it by running (from your authority wallet):",
   "",
   "  buildLinkWalletTransaction(connection, \x7b",
   "    authority: \"<your-authority-pubkey>\",",
   "    vault_creator: \"" ++ vaultCreator ++ "\",",
   "    wallet_to_link: \"" ++ agentPub ++ "\"",
   "  \x7d)",
   "",
   "then restart the bot.",
   "-----------------------"]

/-- Outcome of the startup preflight, with the log records emitted on the
way: a thrown error reaching `main().catch` (printed as `FATAL`, exit
status 1), the linkage-instructions branch (`process.exit(1)`), or entry
into the scan loop. -/
inductive PreflightResult where
  | fatal (logs : List Ev) (msg : String)
  | exitLink (logs : List Ev) (printed : List String)
  | proceed (logs : List Ev)
deriving DecidableEq, Repr

/-- The preflight portion of `main` in `index.js`: the wrapped `getVault`
lookup (absent → throw), the `vault found` info line, the wrapped
`getVaultForWallet` lookup (absent → print instructions, `process.exit(1)`),
then the `starting scan loop` and treasury info lines. -/
def preflight (env : PreEnv) (agentPub vaultCreator : String) :
    RunResult PreflightResult :=
  match withTimeout (env.getVault vaultCreator) "getVault" with
  | .error e => .done (.fatal [] e.message)
  | .ok none => .done (.fatal [] ("vault not found for creator " ++ vaultCreator))
  | .ok (some vault) =>
    let vaultLog := Ev.log .info ("vault found — authority=" ++ vault.authority)
    match withTimeout (env.getVaultForWallet agentPub) "getVaultForWallet" with
    | .error e => .done (.fatal [vaultLog] e.message)
    | .ok none =>
      .done (.exitLink [vaultLog] (linkInstructions vaultCreator agentPub))
    | .ok (some _) =>
      .done (.proceed [vaultLog,
        Ev.log .info "agent wallet linked to vault — starting scan loop",
        Ev.log .info ("treasury: " ++ sol (vault.sol_balance.getD 0) ++ " SOL")])

/-- The whole of `main` after configuration: preflight, then — only in the
`proceed` case — `n` scan cycles.  The result pairs the emitted records
with the process exit status (`some 1` for the two preflight failure
paths, `none` while the loop runs). -/
def mainRun (pre : PreEnv) (envs : Nat → Env) (agentPub vaultCreator : String)
    (intervalMs : Int) (n : Nat) : RunResult (List Ev × Option Nat) :=
  match preflight pre agentPub vaultCreator with
  | .hangs => .hangs
  | .done (.fatal logs _) => .done (logs, some 1)
  | .done (.exitLink logs _) => .done (logs, some 1)
  | .done (.proceed logs) =>
    match runLoop envs agentPub vaultCreator intervalMs n with
    | .hangs => .hangs
    | .done evs => .done (logs ++ evs, none)

/-! ## Trace observations and step predicates -/

/-- The executor invocations recorded in a trace, as (mint, borrower) pairs. -/
def attemptsOf (evs : List Ev) : List (String × String) :=
  evs.filterMap fun ev =>
    match ev with
    | .attempt m b => some (m, b)
    | _ => none

/-- The unit-loop entries recorded in a trace. -/
def unitsOf (evs : List Ev) : List String :=
  evs.filterMap fun ev =>
    match ev with
    | .unit m => some m
    | _ => none

/-- `needle` occurs contiguously inside `hay`. -/
def SubstrOf (needle hay : String) : Prop :=
  ∃ pre post, hay = pre ++ (needle ++ post)

/-- One of the four execution steps of one attempt — build, sign, submit,
confirm — is the first to fail, and it fails with error `e`. -/
def stepFailsWith (env : Env) (agentPub vaultCreator : String) (token : Token)
    (pos : Position) (e : JsError) : Prop :=
  buildStep env agentPub vaultCreator token pos = .error e
  ∨ (∃ tx m, buildStep env agentPub vaultCreator token pos = .ok (tx, m) ∧
      tx.signSerialize = .error e)
  ∨ (∃ tx m raw t, buildStep env agentPub vaultCreator token pos = .ok (tx, m) ∧
      tx.signSerialize = .ok raw ∧
      env.sendRawTransaction raw = .completes t (.error e))
  ∨ (∃ tx m raw t sig, buildStep env agentPub vaultCreator token pos = .ok (tx, m) ∧
      tx.signSerialize = .ok raw ∧
      env.sendRawTransaction raw = .completes t (.ok sig) ∧
      withTimeout (env.confirmTransaction sig agentPub) "confirmTransaction" = .error e)

/-- The predicate of the maximal actionable prefix: the position's tier is
`liquidatable`. -/
def isLiq (p : Position) : Bool := decide (p.health = Health.liquidatable)

/-- The trace contributed by one token's iteration (empty when the iteration
never completes; used only under a completion hypothesis). -/
def tokenTrace (env : Env) (a v : String) (t : Token) : List Ev :=
  match processToken env a v t with
  | .done evs => evs
  | .hangs => []

/-! ## Concrete fixtures used by the witness theorems -/

def tokW : Token := ⟨"MINT1", "TOK"⟩

def posA : Position := ⟨"borrowerAAAA", .liquidatable, 1500000000, some 8250⟩

def posB : Position := ⟨"borrowerBBBB", .liquidatable, 2000000000, none⟩

def posC : Position := ⟨"borrowerCCCC", .healthy, 0, none⟩

def posD : Position := ⟨"borrowerDDDD", .liquidatable, 0, none⟩

def psW : List Position := [posA, posB, posC, posD]

/-- A world where discovery finds one token, its position list is
`[liquidatable, liquidatable, healthy, liquidatable]`, and every build
attempt is rejected. -/
def envW : Env :=
  { getTokens := fun _ => .completes 0 (.ok [tokW])
    getAllLoanPositions := fun _ => .completes 0 (.ok psW)
    buildLiquidateTransaction := fun _ => .completes 0 (.error (.err "no route"))
    sendRawTransaction := fun _ => .never
    confirmTransaction := fun _ _ => .never }

/-- The trace of `processToken envW "AGENT" "VAULT" tokW`. -/
def evsW : List Ev :=
  [Ev.unit "MINT1", Ev.log .debug "TOK — 4 active loans",
   Ev.log .info (liquidatableMsg tokW posA), Ev.attempt "MINT1" "borrowerAAAA",
   Ev.log .warn (failMsg tokW posA (.err "no route")),
   Ev.log .info (liquidatableMsg tokW posB), Ev.attempt "MINT1" "borrowerBBBB",
   Ev.log .warn (failMsg tokW posB (.err "no route"))]

/-- A world where every external call stays in flight forever. -/
def envErr : Env :=
  { getTokens := fun _ => .never
    getAllLoanPositions := fun _ => .never
    buildLiquidateTransaction := fun _ => .never
    sendRawTransaction := fun _ => .never
    confirmTransaction := fun _ _ => .never }

def txOk : Tx := ⟨.ok [0]⟩

/-- A world where the build succeeds, signing succeeds, and the submission
never settles. -/
def envSendNever : Env :=
  { getTokens := fun _ => .completes 0 (.ok [tokW])
    getAllLoanPositions := fun _ => .completes 0 (.ok [posA])
    buildLiquidateTransaction := fun _ => .completes 0 (.ok (txOk, "built"))
    sendRawTransaction := fun _ => .never
    confirmTransaction := fun _ _ => .completes 0 (.ok ()) }

def vaultW : Vault := ⟨"AUTH", some 5000000000⟩

/-- Preflight world: the vault-existence lookup returns absent. -/
def preNoVault : PreEnv :=
  ⟨fun _ => .completes 0 (.ok none), fun _ => .completes 0 (.ok none)⟩

/-- Preflight world: the vault exists but the agent-linkage lookup returns
absent. -/
def preNoLink : PreEnv :=
  ⟨fun _ => .completes 0 (.ok (some vaultW)), fun _ => .completes 0 (.ok none)⟩

def envsW : Nat → Env := fun _ => envErr

/-! ## General helper lemmas -/

/-- A completed executor invocation emits exactly one record: the warning of
the first failing step, or the `LIQUIDATED` info line. -/
theorem executeLiquidation_shape {env : Env} {a v : String} {token : Token}
    {pos : Position} {evs : List Ev}
    (h : executeLiquidation env a v token pos = .done evs) :
    (∃ e, evs = [Ev.log .warn (failMsg token pos e)]) ∨
      (∃ sig m, evs = [Ev.log .info (liquidatedMsg token pos sig m)]) := by
  unfold executeLiquidation at h
  rcases hb : buildStep env a v token pos with e | ⟨tx, m⟩ <;> simp only [hb] at h
  · injection h with h
    exact .inl ⟨e, h.symm⟩
  · rcases hs : tx.signSerialize with e | raw <;> simp only [hs] at h
    · injection h with h
      exact .inl ⟨e, h.symm⟩
    · rcases hr : env.sendRawTransaction raw with ⟨t, res⟩ | _ <;> simp only [hr] at h
      · rcases res with e | sig <;> simp only at h
        · injection h with h
          exact .inl ⟨e, h.symm⟩
        · rcases hc : withTimeout (env.confirmTransaction sig a) "confirmTransaction"
            with e | u <;> simp only [hc] at h
          · injection h with h
            exact .inl ⟨e, h.symm⟩
          · injection h with h
            exact .inr ⟨sig, m, h.symm⟩
      · cases h

/-- The executor's trace records no executor-invocation markers of its own. -/
theorem executeLiquidation_attempts {env : Env} {a v : String} {token : Token}
    {pos : Position} {evs : List Ev}
    (h : executeLiquidation env a v token pos = .done evs) : attemptsOf evs = [] := by
  rcases executeLiquidation_shape h with ⟨e, rfl⟩ | ⟨sig, m, rfl⟩ <;> rfl

/-- The executor's trace records no unit-loop markers. -/
theorem executeLiquidation_units {env : Env} {a v : String} {token : Token}
    {pos : Position} {evs : List Ev}
    (h : executeLiquidation env a v token pos = .done evs) : unitsOf evs = [] := by
  rcases executeLiquidation_shape h with ⟨e, rfl⟩ | ⟨sig, m, rfl⟩ <;> rfl

theorem attemptsOf_append (a b : List Ev) :
    attemptsOf (a ++ b) = attemptsOf a ++ attemptsOf b :=
  List.filterMap_append a b _

theorem unitsOf_append (a b : List Ev) :
    unitsOf (a ++ b) = unitsOf a ++ unitsOf b :=
  List.filterMap_append a b _

/-- The position walk attempts exactly the positions of the maximal
liquidatable prefix of the scanned sequence, in order. -/
theorem processPositions_attempts {env : Env} {a v : String} {token : Token}
    {ps : List Position} {evs : List Ev}
    (h : processPositions env a v token ps = .done evs) :
    attemptsOf evs = (ps.takeWhile isLiq).map fun p => (token.mint, p.borrower) := by
  induction ps generalizing evs with
  | nil =>
    injection h with h
    simp [← h, attemptsOf]
  | cons pos rest ih =>
    rw [processPositions] at h
    by_cases hh : pos.health = Health.liquidatable
    · rw [if_neg (by simp [hh])] at h
      rcases he : executeLiquidation env a v token pos with evs1 | _ <;>
        simp only [he] at h
      · rcases hr : processPositions env a v token rest with evs2 | _ <;>
          simp only [hr] at h
        · injection h with h
          subst h
          rw [List.takeWhile_cons_of_pos (by simp [isLiq, hh])]
          simp only [attemptsOf, List.filterMap_cons]
          rw [List.filterMap_append]
          have h1 := executeLiquidation_attempts he
          have h2 := ih hr
          simp only [attemptsOf] at h1 h2
          simp [h1, h2]
        · cases h
      · cases h
    · rw [if_pos (by simp [hh])] at h
      injection h with h
      subst h
      rw [List.takeWhile_cons_of_neg (by simp [isLiq, hh])]
      rfl

/-- The position walk records no unit-loop markers. -/
theorem processPositions_units {env : Env} {a v : String} {token : Token}
    {ps : List Position} {evs : List Ev}
    (h : processPositions env a v token ps = .done evs) : unitsOf evs = [] := by
  induction ps generalizing evs with
  | nil =>
    injection h with h
    simp [← h, unitsOf]
  | cons pos rest ih =>
    rw [processPositions] at h
    by_cases hh : pos.health = Health.liquidatable
    · rw [if_neg (by simp [hh])] at h
      rcases he : executeLiquidation env a v token pos with evs1 | _ <;>
        simp only [he] at h
      · rcases hr : processPositions env a v token rest with evs2 | _ <;>
          simp only [hr] at h
        · injection h with h
          subst h
          simp only [unitsOf, List.filterMap_cons]
          rw [List.filterMap_append]
          have h1 := executeLiquidation_units he
          have h2 := ih hr
          simp only [unitsOf] at h1 h2
          simp [h1, h2]
        · cases h
      · cases h
    · rw [if_pos (by simp [hh])] at h
      injection h with h
      simp [← h, unitsOf]

/-- One completed unit iteration records exactly one unit-loop entry, for
that unit. -/
theorem processToken_units {env : Env} {a v : String} {token : Token} {evs : List Ev}
    (h : processToken env a v token = .done evs) : unitsOf evs = [token.mint] := by
  unfold processToken at h
  rcases hp : positionsStep env token with e | ps <;> simp only [hp] at h
  · injection h with h
    simp [← h, unitsOf]
  · by_cases hz : ps.length = 0
    · rw [if_pos hz] at h
      injection h with h
      simp [← h, unitsOf]
    · rw [if_neg hz] at h
      rcases hr : processPositions env a v token ps with evs1 | _ <;>
        simp only [hr] at h
      · injection h with h
        subst h
        simp only [unitsOf, List.filterMap_cons]
        have h1 := processPositions_units hr
        simp only [unitsOf] at h1
        simp [h1]
      · cases h

/-- A completed token loop records exactly one unit-loop entry per discovered
token, in discovery order. -/
theorem processTokens_units {env : Env} {a v : String} {ts : List Token} {evs : List Ev}
    (h : processTokens env a v ts = .done evs) : unitsOf evs = ts.map Token.mint := by
  induction ts generalizing evs with
  | nil =>
    injection h with h
    simp [← h, unitsOf]
  | cons t rest ih =>
    rw [processTokens] at h
    rcases h1 : processToken env a v t with evs1 | _ <;> simp only [h1] at h
    · rcases h2 : processTokens env a v rest with evs2 | _ <;> simp only [h2] at h
      · injection h with h
        subst h
        rw [unitsOf_append, processToken_units h1, ih h2]
        rfl
      · cases h
    · cases h

/-- A completed token loop is the in-order concatenation of completed
per-token traces. -/
theorem processTokens_decomp {env : Env} {a v : String} {ts : List Token} {evs : List Ev}
    (h : processTokens env a v ts = .done evs) :
    evs = (ts.map (tokenTrace env a v)).flatten ∧
      ∀ t ∈ ts, processToken env a v t = .done (tokenTrace env a v t) := by
  induction ts generalizing evs with
  | nil =>
    injection h with h
    subst h
    exact ⟨rfl, by simp⟩
  | cons t rest ih =>
    rw [processTokens] at h
    rcases h1 : processToken env a v t with evs1 | _ <;> simp only [h1] at h
    · rcases h2 : processTokens env a v rest with evs2 | _ <;> simp only [h2] at h
      · injection h with h
        subst h
        obtain ⟨hd, hall⟩ := ih h2
        have ht : tokenTrace env a v t = evs1 := by
          simp [tokenTrace, h1]
        refine ⟨?_, ?_⟩
        · simp [ht, hd]
        · intro t' ht'
          rcases List.mem_cons.mp ht' with rfl | hmem
          · rw [ht]
            exact h1
          · exact hall t' hmem
      · cases h
    · cases h

/-- The executor reads only the build, submission and confirmation behaviour
of the world. -/
theorem executeLiquidation_env_congr (env env' : Env)
    (hB : env'.buildLiquidateTransaction = env.buildLiquidateTransaction)
    (hS : env'.sendRawTransaction = env.sendRawTransaction)
    (hC : env'.confirmTransaction = env.confirmTransaction)
    (a v : String) (token : Token) (pos : Position) :
    executeLiquidation env' a v token pos = executeLiquidation env a v token pos := by
  simp only [executeLiquidation, buildStep, hB, hS, hC]

theorem processPositions_env_congr (env env' : Env)
    (hB : env'.buildLiquidateTransaction = env.buildLiquidateTransaction)
    (hS : env'.sendRawTransaction = env.sendRawTransaction)
    (hC : env'.confirmTransaction = env.confirmTransaction)
    (a v : String) (token : Token) (ps : List Position) :
    processPositions env' a v token ps = processPositions env a v token ps := by
  induction ps with
  | nil => rfl
  | cons pos rest ih =>
    simp only [processPositions, executeLiquidation_env_congr env env' hB hS hC, ih]

theorem processToken_env_congr (env env' : Env)
    (hA : env'.getAllLoanPositions = env.getAllLoanPositions)
    (hB : env'.buildLiquidateTransaction = env.buildLiquidateTransaction)
    (hS : env'.sendRawTransaction = env.sendRawTransaction)
    (hC : env'.confirmTransaction = env.confirmTransaction)
    (a v : String) (token : Token) :
    processToken env' a v token = processToken env a v token := by
  simp only [processToken, positionsStep, hA,
    processPositions_env_congr env env' hB hS hC]

theorem processTokens_env_congr (env env' : Env)
    (hA : env'.getAllLoanPositions = env.getAllLoanPositions)
    (hB : env'.buildLiquidateTransaction = env.buildLiquidateTransaction)
    (hS : env'.sendRawTransaction = env.sendRawTransaction)
    (hC : env'.confirmTransaction = env.confirmTransaction)
    (a v : String) (ts : List Token) :
    processTokens env' a v ts = processTokens env a v ts := by
  induction ts with
  | nil => rfl
  | cons t rest ih =>
    simp only [processTokens, processToken_env_congr env env' hA hB hS hC, ih]

/-! ## Claim C9 — logger filtering -/

/-- C9: for every configured minimum level and every log call, the logger
emits exactly one line `[time] LEVEL message` (the level tag upper-cased
and space-padded to width 5) precisely when the call's level is at or
above the configured minimum in the order debug < info < warn < error,
and emits nothing otherwise. -/
theorem C9_logger_filtering (minLevel level : LogLevel) (ts msg : String) :
    (createLogger minLevel ts level msg = some (logLine ts level msg) ↔
      levelIdx minLevel ≤ levelIdx level) ∧
    (createLogger minLevel ts level msg = none ↔ levelIdx level < levelIdx minLevel) ∧
    logLine ts level msg = "[" ++ ts ++ "] " ++ padEnd (levelUpper level) 5 ++ " " ++ msg := by
  refine ⟨?_, ?_, rfl⟩ <;> unfold createLogger <;> split <;> rename_i h <;> simp <;> omega

/-! ## Claim C7 — configuration loading -/

/-- C7: configuration loading fails exactly when the endpoint address is
missing (absent or empty, both falsy in the source), the vault-creator
identifier is missing, the cycle interval is supplied but does not parse
to a number at least 5000, or the minimum log level is not one of debug,
info, warn, error; otherwise it returns a configuration, defaulting the
interval to 30000 and the level to info when unsupplied. -/
theorem C7_loadConfig (env : ProcEnv) :
    ((∃ e, loadConfig env = .error e) ↔
      (env.RPC_URL.getD "" = "" ∨ env.VAULT_CREATOR.getD "" = "" ∨
        (∃ s, env.SCAN_INTERVAL_MS = some s ∧
          (parseIntJs s = none ∨ ∃ n, parseIntJs s = some n ∧ n < 5000)) ∨
        levelOfString (env.LOG_LEVEL.getD "info") = none)) ∧
    (∀ cfg, loadConfig env = .ok cfg →
      cfg.rpcUrl = env.RPC_URL.getD "" ∧
      cfg.vaultCreator = env.VAULT_CREATOR.getD "" ∧
      (env.SCAN_INTERVAL_MS = none → cfg.scanIntervalMs = 30000) ∧
      (env.LOG_LEVEL = none → cfg.logLevel = .info)) := by
  obtain ⟨r, c, i, l⟩ := env
  simp only [loadConfig]
  constructor
  · by_cases h1 : r.getD "" = ""
    · simp [h1]
    · rw [if_neg h1]
      by_cases h2 : c.getD "" = ""
      · simp [h1, h2]
      · rw [if_neg h2]
        split
        · rename_i hp
          refine ⟨fun _ => .inr (.inr (.inl ?_)), fun _ => ⟨_, rfl⟩⟩
          rcases i with _ | s
          · have h30 : parseIntJs ((none : Option String).getD "30000") = some 30000 := by
              decide
            rw [h30] at hp
            cases hp
          · exact ⟨s, rfl, .inl hp⟩
        · rename_i n hp
          by_cases h5 : n < 5000
          · rw [if_pos h5]
            refine ⟨fun _ => .inr (.inr (.inl ?_)), fun _ => ⟨_, rfl⟩⟩
            rcases i with _ | s
            · have h30 : parseIntJs ((none : Option String).getD "30000") = some 30000 := by
                decide
              rw [h30] at hp
              injection hp with hp
              omega
            · exact ⟨s, rfl, .inr ⟨n, hp, h5⟩⟩
          · rw [if_neg h5]
            split
            · rename_i hl
              exact ⟨fun _ => .inr (.inr (.inr hl)), fun _ => ⟨_, rfl⟩⟩
            · rename_i lv hl
              constructor
              · rintro ⟨e, he⟩
                cases he
              · rintro (h | h | ⟨s', hs', hbad⟩ | h)
                · exact absurd h h1
                · exact absurd h h2
                · subst hs'
                  simp only [Option.getD] at hp
                  rcases hbad with hbad | ⟨n', hn', hlt⟩
                  · rw [hp] at hbad
                    cases hbad
                  · rw [hp] at hn'
                    injection hn' with hn'
                    omega
                · rw [hl] at h
                  cases h
  · intro cfg hcfg
    by_cases h1 : r.getD "" = ""
    · rw [if_pos h1] at hcfg
      cases hcfg
    · rw [if_neg h1] at hcfg
      by_cases h2 : c.getD "" = ""
      · rw [if_pos h2] at hcfg
        cases hcfg
      · rw [if_neg h2] at hcfg
        rcases hp : parseIntJs (i.getD "30000") with _ | n <;> simp only [hp] at hcfg
        · cases hcfg
        · by_cases h5 : n < 5000
          · rw [if_pos h5] at hcfg
            cases hcfg
          · rw [if_neg h5] at hcfg
            rcases hl : levelOfString (l.getD "info") with _ | lv <;>
              simp only [hl] at hcfg
            · cases hcfg
            · injection hcfg with hcfg
              subst hcfg
              refine ⟨rfl, rfl, ?_, ?_⟩
              · intro hi
                subst hi
                simp only [Option.getD] at hp
                have : parseIntJs "30000" = some 30000 := by decide
                rw [this] at hp
                injection hp with hp
                simp [hp]
              · intro hlnone
                subst hlnone
                simp only [Option.getD] at hl
                have : levelOfString "info" = some LogLevel.info := by decide
                rw [this] at hl
                injection hl with hl
                simp [← hl]

/-! ## Claim C1 — break on first non-liquidatable position -/

/-- C1: for every cycle and every tradable unit, the orchestrator invokes
the liquidation executor exactly for the positions of the maximal
liquidatable prefix of the unit's returned sequence, in order — it stops
consuming the sequence at the first non-liquidatable entry. -/
theorem C1_break_on_first_non_liquidatable (env : Env) (a v : String) (token : Token)
    (ps : List Position) (evs : List Ev)
    (hps : positionsStep env token = .ok ps)
    (hr : processToken env a v token = .done evs) :
    attemptsOf evs = (ps.takeWhile isLiq).map fun p => (token.mint, p.borrower) := by
  unfold processToken at hr
  simp only [hps] at hr
  by_cases hz : ps.length = 0
  · rw [if_pos hz] at hr
    injection hr with hr
    subst hr
    have hnil : ps = [] := List.length_eq_zero.mp hz
    subst hnil
    rfl
  · rw [if_neg hz] at hr
    rcases hpp : processPositions env a v token ps with evs1 | _ <;> simp only [hpp] at hr
    · injection hr with hr
      subst hr
      have h := processPositions_attempts hpp
      simpa [attemptsOf] using h
    · cases hr

/-- Witness for C1: a returned sequence tiered
`[liquidatable, liquidatable, healthy, liquidatable]` yields exactly the two
executor invocations before the healthy entry. -/
theorem C1_break_on_first_non_liquidatable_witness :
    processToken envW "AGENT" "VAULT" tokW = .done evsW ∧
    attemptsOf evsW = [("MINT1", "borrowerAAAA"), ("MINT1", "borrowerBBBB")] :=
  ⟨by decide,
   (C1_break_on_first_non_liquidatable envW "AGENT" "VAULT" tokW psW evsW (by decide)
      (by decide)).trans (by decide)⟩

/-! ## Claim C2 — executor failure isolation -/

/-- C2: if any of the four steps of one executor invocation — build, sign,
submit, confirm — throws or rejects, the executor emits exactly one
warning record (containing the unit identifier, the truncated borrower
identifier, and the error message), emits no `LIQUIDATED` record, and
returns normally, so the walk continues with the remaining positions. -/
theorem C2_executor_failure_isolated (env : Env) (a v : String) (token : Token)
    (pos : Position) (e : JsError) (h : stepFailsWith env a v token pos e) :
    executeLiquidation env a v token pos = .done [Ev.log .warn (failMsg token pos e)] ∧
    SubstrOf token.symbol (failMsg token pos e) ∧
    SubstrOf (pos.borrower.take 8) (failMsg token pos e) ∧
    SubstrOf e.message (failMsg token pos e) ∧
    (∀ m, Ev.log .info m ∉ [Ev.log .warn (failMsg token pos e)]) ∧
    (pos.health = Health.liquidatable →
      ∀ rest r, processPositions env a v token rest = .done r →
        processPositions env a v token (pos :: rest) =
          .done (Ev.log .info (liquidatableMsg token pos) ::
            Ev.attempt token.mint pos.borrower ::
            Ev.log .warn (failMsg token pos e) :: r)) := by
  have hex : executeLiquidation env a v token pos =
      .done [Ev.log .warn (failMsg token pos e)] := by
    rcases h with hb | ⟨tx, m, hb, hs⟩ | ⟨tx, m, raw, t, hb, hs, hr⟩ |
      ⟨tx, m, raw, t, sig, hb, hs, hr, hc⟩
    · simp only [executeLiquidation, hb]
    · simp only [executeLiquidation, hb, hs]
    · simp only [executeLiquidation, hb, hs, hr]
    · simp only [executeLiquidation, hb, hs, hr, hc]
  refine ⟨hex, ?_, ?_, ?_, ?_, ?_⟩
  · exact ⟨"LIQUIDATION FAILED | ",
      " | " ++ (pos.borrower.take 8 ++ ("... | " ++ e.message)),
      by simp [failMsg, String.append_assoc]⟩
  · exact ⟨"LIQUIDATION FAILED | " ++ (token.symbol ++ " | "),
      "... | " ++ e.message,
      by simp [failMsg, String.append_assoc]⟩
  · exact ⟨"LIQUIDATION FAILED | " ++ (token.symbol ++ (" | " ++
      (pos.borrower.take 8 ++ "... | "))), "",
      by simp [failMsg, String.append_assoc]⟩
  · intro m hm
    simp at hm
  · intro hh rest r hrest
    rw [processPositions, if_neg (by simp [hh])]
    simp only [hex, hrest, List.singleton_append]

/-- Witness for C2: a rejected build step yields exactly the single warning
record. -/
theorem C2_executor_failure_isolated_witness :
    executeLiquidation envW "AGENT" "VAULT" tokW posA =
      .done [Ev.log .warn (failMsg tokW posA (.err "no route"))] :=
  (C2_executor_failure_isolated envW "AGENT" "VAULT" tokW posA (.err "no route")
    (.inl (by decide))).1

/-! ## Claim C5 — per-unit error isolation -/

/-- C5: every unit returned by discovery is attempted — a completed cycle
records one unit-loop entry per discovered unit, in order — and a unit
whose position retrieval fails (including by timeout) is skipped for the
cycle with no records beyond its loop-entry marker and no propagated
error. -/
theorem C5_unit_isolation (env : Env) (a v : String) (tokens : List Token)
    (evs : List Ev) :
    (withTimeout (env.getTokens getTokensArgs) "getTokens" = .ok tokens →
      scanAndLiquidate env a v = .done (.ok evs) →
      unitsOf evs = tokens.map Token.mint) ∧
    (∀ token e, positionsStep env token = .error e →
      processToken env a v token = .done [Ev.unit token.mint]) := by
  constructor
  · intro hd hscan
    unfold scanAndLiquidate at hscan
    simp only [hd] at hscan
    rcases hp : processTokens env a v tokens with evs1 | _ <;> simp only [hp] at hscan
    · injection hscan with hscan
      injection hscan with hscan
      subst hscan
      have h := processTokens_units hp
      simpa [unitsOf] using h
    · cases hscan
  · intro token e h
    unfold processToken
    simp only [h]

/-- Witness for C5: in `envW` a cycle attempts the one discovered unit, and
in the stalled world a unit whose retrieval times out is skipped. -/
theorem C5_unit_isolation_witness :
    unitsOf (Ev.log .debug "discovered 1 migrated tokens" :: evsW) = ["MINT1"] ∧
    processToken envErr "AGENT" "VAULT" tokW = .done [Ev.unit "MINT1"] :=
  ⟨((C5_unit_isolation envW "AGENT" "VAULT" [tokW]
      (Ev.log .debug "discovered 1 migrated tokens" :: evsW)).1 (by decide)
      (by decide)).trans (by decide),
   (C5_unit_isolation envErr "AGENT" "VAULT" [] []).2 tokW
      (.timeout "getAllLoanPositions") (by decide)⟩

/-! ## Claim C8 — discovery parameters and in-order sequential processing -/

/-- C8: discovery always asks for at most 50 units with migrated/active
markets ordered volume-descending (`{status: migrated, sort: volume,
limit: 50}` is the only query the cycle makes), and a completed cycle is
the in-order concatenation of the per-unit traces of the discovered
units, with no reordering. -/
theorem C8_discovery_params_and_order (env : Env)
    (g : GetTokensParams → AsyncOp (List Token)) (a v : String)
    (tokens : List Token) (evs : List Ev) :
    getTokensArgs = ⟨"migrated", "volume", 50⟩ ∧
    (g getTokensArgs = env.getTokens getTokensArgs →
      scanAndLiquidate { env with getTokens := g } a v = scanAndLiquidate env a v) ∧
    (withTimeout (env.getTokens getTokensArgs) "getTokens" = .ok tokens →
      scanAndLiquidate env a v = .done (.ok evs) →
      evs = Ev.log .debug ("discovered " ++ toString tokens.length ++
          " migrated tokens") :: (tokens.map (tokenTrace env a v)).flatten ∧
        ∀ t ∈ tokens, processToken env a v t = .done (tokenTrace env a v t)) := by
  obtain ⟨f1, f2, f3, f4, f5⟩ := env
  refine ⟨rfl, ?_, ?_⟩
  · intro hg
    simp only [scanAndLiquidate]
    rw [show g getTokensArgs = f1 getTokensArgs from hg]
    simp only [processTokens_env_congr ⟨f1, f2, f3, f4, f5⟩ ⟨g, f2, f3, f4, f5⟩
      rfl rfl rfl rfl]
  · intro hd hscan
    unfold scanAndLiquidate at hscan
    simp only [hd] at hscan
    rcases hp : processTokens ⟨f1, f2, f3, f4, f5⟩ a v tokens with evs1 | _ <;>
      simp only [hp] at hscan
    · injection hscan with hscan
      injection hscan with hscan
      subst hscan
      obtain ⟨hdec, hall⟩ := processTokens_decomp hp
      exact ⟨by rw [hdec], hall⟩
    · cases hscan

/-- Witness for C8: replacing the discovery behaviour by one that agrees at
the cycle's query leaves the cycle unchanged, and the single discovered
unit's trace is its per-unit trace. -/
theorem C8_discovery_params_and_order_witness :
    scanAndLiquidate { envW with getTokens := fun _ => .completes 0 (.ok [tokW]) }
        "AGENT" "VAULT" = scanAndLiquidate envW "AGENT" "VAULT" ∧
    processToken envW "AGENT" "VAULT" tokW = .done (tokenTrace envW "AGENT" "VAULT" tokW) := by
  refine ⟨(C8_discovery_params_and_order envW (fun _ => .completes 0 (.ok [tokW]))
      "AGENT" "VAULT" [] []).2.1 rfl, ?_⟩
  have h := (C8_discovery_params_and_order envW envW.getTokens "AGENT" "VAULT" [tokW]
      (Ev.log .debug "discovered 1 migrated tokens" :: evsW)).2.2 (by decide) (by decide)
  exact h.2 tokW (by simp)

/-! ## Claim C3 — the run loop survives every cycle error -/

/-- C3: once preflight succeeds the run loop never terminates on a cycle
error: an error escaping a cycle is caught and logged at error level, the
loop sleeps for the configured interval and starts the next cycle, and
as long as cycles keep completing the process never exits. -/
theorem C3_run_loop_never_stops (envs : Nat → Env) (a v : String) (intervalMs : Int) :
    (∀ env e, scanAndLiquidate env a v = .done (.error e) →
      runCycle env a v = .done [Ev.log .debug "--- scan cycle start ---",
        Ev.log .error ("scan cycle error: " ++ e.message)]) ∧
    (∀ n evs rest, runCycle (envs 0) a v = .done evs →
      runLoop (fun k => envs (k + 1)) a v intervalMs n = .done rest →
      runLoop envs a v intervalMs (n + 1) = .done (evs ++ Ev.sleep intervalMs :: rest)) ∧
    (∀ pre logs n evs, preflight pre a v = .done (.proceed logs) →
      runLoop envs a v intervalMs n = .done evs →
      mainRun pre envs a v intervalMs n = .done (logs ++ evs, none)) := by
  refine ⟨?_, ?_, ?_⟩
  · intro env e h
    unfold runCycle
    simp only [h]
  · intro n evs rest h1 h2
    simp only [runLoop, h1, h2]
  · intro pre logs n evs h1 h2
    unfold mainRun
    simp only [h1, h2]

/-- Witness for C3: with every external call stalled, the first cycle fails
with the discovery timeout, is logged at error level, and the loop sleeps
and continues. -/
theorem C3_run_loop_never_stops_witness :
    runLoop envsW "AGENT" "VAULT" 30000 1 =
      .done ([Ev.log .debug "--- scan cycle start ---",
        Ev.log .error ("scan cycle error: " ++
          JsError.message (.timeout "getTokens"))] ++ Ev.sleep 30000 :: []) := by
  have h1 := (C3_run_loop_never_stops envsW "AGENT" "VAULT" 30000).1 envErr
    (.timeout "getTokens") (by decide)
  exact (C3_run_loop_never_stops envsW "AGENT" "VAULT" 30000).2.1 0 _ [] h1 rfl

/-! ## Claim C6 — preflight failure behaviour -/

/-- A string differing from `b` in its first character is not `b ++ x`. -/
theorem ne_append_of_head (a b x : String) (h : a.data.head? ≠ b.data.head?)
    (hb : b.data ≠ []) : a ≠ b ++ x := by
  intro he
  apply h
  rw [he, String.data_append]
  rcases hd : b.data with _ | ⟨c, cs⟩
  · exact absurd hd hb
  · simp

/-- C6: a preflight vault lookup returning absent makes the process exit
with status 1 before any cycle runs and with no records emitted (in
particular no `starting scan loop` record); a present vault with an
absent agent linkage makes the process print the linkage instructions —
naming `buildLinkWalletTransaction`, the configured vault creator and the
agent's public identity — and exit with status 1 without entering the run
loop. -/
theorem C6_preflight_failures (pre : PreEnv) (envs : Nat → Env) (a v : String)
    (intervalMs : Int) (n : Nat) :
    (withTimeout (pre.getVault v) "getVault" = .ok none →
      preflight pre a v = .done (.fatal [] ("vault not found for creator " ++ v)) ∧
      mainRun pre envs a v intervalMs n = .done ([], some 1) ∧
      Ev.log .info "agent wallet linked to vault — starting scan loop" ∉ ([] : List Ev)) ∧
    (∀ vault, withTimeout (pre.getVault v) "getVault" = .ok (some vault) →
      withTimeout (pre.getVaultForWallet a) "getVaultForWallet" = .ok none →
      preflight pre a v = .done (.exitLink
        [Ev.log .info ("vault found — authority=" ++ vault.authority)]
        (linkInstructions v a)) ∧
      mainRun pre envs a v intervalMs n =
        .done ([Ev.log .info ("vault found — authority=" ++ vault.authority)], some 1) ∧
      "  buildLinkWalletTransaction(connection, \x7b" ∈ linkInstructions v a ∧
      ("    vault_creator: \"" ++ v ++ "\",") ∈ linkInstructions v a ∧
      ("    wallet_to_link: \"" ++ a ++ "\"") ∈ linkInstructions v a ∧
      Ev.log .info "agent wallet linked to vault — starting scan loop" ∉
        [Ev.log .info ("vault found — authority=" ++ vault.authority)]) := by
  constructor
  · intro hv
    have hp : preflight pre a v =
        .done (.fatal [] ("vault not found for creator " ++ v)) := by
      unfold preflight
      simp only [hv]
    refine ⟨hp, ?_, by simp⟩
    unfold mainRun
    simp only [hp]
  · intro vault hv hl
    have hp : preflight pre a v = .done (.exitLink
        [Ev.log .info ("vault found — authority=" ++ vault.authority)]
        (linkInstructions v a)) := by
      unfold preflight
      simp only [hv, hl]
    refine ⟨hp, ?_, by simp [linkInstructions], by simp [linkInstructions],
      by simp [linkInstructions], ?_⟩
    · unfold mainRun
      simp only [hp]
    · intro hmem
      simp only [List.mem_singleton, Ev.log.injEq, true_and] at hmem
      exact ne_append_of_head _ _ _ (by decide) (by decide) hmem

/-- Witness for C6: the two concrete preflight worlds. -/
theorem C6_preflight_failures_witness :
    mainRun preNoVault envsW "AGENT" "VAULT" 30000 3 = .done ([], some 1) ∧
    mainRun preNoLink envsW "AGENT" "VAULT" 30000 3 =
      .done ([Ev.log .info ("vault found — authority=" ++ vaultW.authority)], some 1) :=
  ⟨((C6_preflight_failures preNoVault envsW "AGENT" "VAULT" 30000 3).1 (by decide)).2.1,
   ((C6_preflight_failures preNoLink envsW "AGENT" "VAULT" 30000 3).2 vaultW
      (by decide) (by decide)).2.1⟩

/-! ## Claim C4 — timeout wrapper coverage -/

/-- C4 counterexample: transaction submission is *not* wrapped by the timeout
wrapper — in a world whose submission call never settles, the executor
(and with it the whole cycle) blocks forever instead of failing with a
labeled `Timeout` error. -/
theorem C4_counterexample_submission_unwrapped :
    executeLiquidation envSendNever "AGENT" "VAULT" tokW posA = .hangs ∧
    scanAndLiquidate envSendNever "AGENT" "VAULT" = .hangs := by
  constructor <;> decide

/-- C4 (amended): the timeout wrapper returns the operation's result when it
settles before the 30-unit deadline and otherwise fails with a `Timeout`
error carrying the label, and it wraps unit discovery, position
retrieval, transaction build, confirmation and the two preflight lookups
— every external call of the cycle except transaction submission — so
each of those calls, when never settling, surfaces as a correctly-labeled
timeout at its caller. -/
theorem C4_amended_wrapper_coverage :
    (∀ (α : Type) (label : String) (t : Nat) (r : Except JsError α),
      withTimeout (AsyncOp.completes t r) label =
        if t < 30 then r else .error (.timeout label)) ∧
    (∀ (α : Type) (label : String),
      withTimeout (AsyncOp.never : AsyncOp α) label = .error (.timeout label)) ∧
    (∀ env a v, env.getTokens getTokensArgs = .never →
      scanAndLiquidate env a v = .done (.error (.timeout "getTokens"))) ∧
    (∀ env token, env.getAllLoanPositions token.mint = .never →
      positionsStep env token = .error (.timeout "getAllLoanPositions")) ∧
    (∀ env a v token pos,
      env.buildLiquidateTransaction ⟨token.mint, a, pos.borrower, v⟩ = .never →
      executeLiquidation env a v token pos =
        .done [Ev.log .warn (failMsg token pos (.timeout "buildLiquidateTransaction"))]) ∧
    (∀ env a v token pos tx m raw t sig,
      buildStep env a v token pos = .ok (tx, m) → tx.signSerialize = .ok raw →
      env.sendRawTransaction raw = .completes t (.ok sig) →
      env.confirmTransaction sig a = .never →
      executeLiquidation env a v token pos =
        .done [Ev.log .warn (failMsg token pos (.timeout "confirmTransaction"))]) ∧
    (∀ pre a v, pre.getVault v = .never →
      preflight pre a v = .done (.fatal [] (JsError.timeout "getVault").message)) ∧
    (∀ pre a v vault, withTimeout (pre.getVault v) "getVault" = .ok (some vault) →
      pre.getVaultForWallet a = .never →
      preflight pre a v = .done (.fatal
        [Ev.log .info ("vault found — authority=" ++ vault.authority)]
        (JsError.timeout "getVaultForWallet").message)) := by
  refine ⟨fun α label t r => rfl, fun α label => rfl, ?_, ?_, ?_, ?_, ?_, ?_⟩
  · intro env a v h
    unfold scanAndLiquidate
    simp only [h, withTimeout]
  · intro env token h
    unfold positionsStep
    simp only [h, withTimeout]
  · intro env a v token pos h
    unfold executeLiquidation buildStep
    simp only [h, withTimeout]
  · intro env a v token pos tx m raw t sig hb hs hr hc
    unfold executeLiquidation
    simp only [hb, hs, hr, hc, withTimeout]
  · intro pre a v h
    unfold preflight
    simp only [h, withTimeout, JsError.message]
  · intro pre a v vault hv hl
    unfold preflight
    rw [hv]
    simp only [hl, withTimeout, JsError.message]

/-- Witness for C4 (amended): the stalled worlds yield the labeled timeout
failures. -/
theorem C4_amended_wrapper_coverage_witness :
    scanAndLiquidate envErr "AGENT" "VAULT" = .done (.error (.timeout "getTokens")) ∧
    preflight ⟨fun _ => .never, fun _ => .never⟩ "AGENT" "VAULT" =
      .done (.fatal [] (JsError.timeout "getVault").message) :=
  ⟨C4_amended_wrapper_coverage.2.2.1 envErr "AGENT" "VAULT" rfl,
   C4_amended_wrapper_coverage.2.2.2.2.2.2.1 ⟨fun _ => .never, fun _ => .never⟩
     "AGENT" "VAULT" rfl⟩

/-! ## Claim C10 — base-58 decoding -/

theorem pushCarry_eq_nil (c : Nat) : pushCarry c = [] ↔ c = 0 := by
  constructor
  · intro h
    by_contra h0
    rw [pushCarry, dif_neg h0] at h
    cases h
  · intro h
    subst h
    rw [pushCarry]
    simp

theorem leVal_pushCarry (c : Nat) : leVal (pushCarry c) = c := by
  induction c using Nat.strong_induction_on with
  | _ c ih =>
    by_cases h : c = 0
    · subst h
      rw [pushCarry]
      simp [leVal]
    · rw [pushCarry, dif_neg h, leVal,
        ih (c / 256) (Nat.div_lt_self (Nat.pos_of_ne_zero h) (by omega))]
      omega

theorem pushCarry_bytes (c : Nat) : IsBytes (pushCarry c) := by
  induction c using Nat.strong_induction_on with
  | _ c ih =>
    by_cases h : c = 0
    · subst h
      rw [pushCarry]
      intro x hx
      cases hx
    · rw [pushCarry, dif_neg h]
      intro x hx
      rcases List.mem_cons.mp hx with rfl | hmem
      · exact Nat.mod_lt _ (by omega)
      · exact ih (c / 256) (Nat.div_lt_self (Nat.pos_of_ne_zero h) (by omega)) x hmem

theorem pushCarry_canon (c : Nat) : Canon (pushCarry c) := by
  induction c using Nat.strong_induction_on with
  | _ c ih =>
    by_cases h : c = 0
    · subst h
      intro x hx
      rw [pushCarry] at hx
      simp at hx
    · intro x hx
      rw [pushCarry, dif_neg h] at hx
      by_cases hq : c / 256 = 0
      · rw [(pushCarry_eq_nil _).mpr hq] at hx
        simp at hx
        omega
      · rcases hpq : pushCarry (c / 256) with _ | ⟨y, ys⟩
        · exact absurd ((pushCarry_eq_nil _).mp hpq) hq
        · rw [hpq, List.getLast?_cons_cons] at hx
          exact ih (c / 256) (Nat.div_lt_self (Nat.pos_of_ne_zero h) (by omega)) x
            (by rw [hpq]; exact hx)

theorem leVal_ne_zero (l : List Nat) (hc : Canon l) (hnil : l ≠ []) : leVal l ≠ 0 := by
  induction l with
  | nil => exact absurd rfl hnil
  | cons d ds ih =>
    have hL : leVal (d :: ds) = d + 256 * leVal ds := rfl
    cases ds with
    | nil =>
      have hd0 : d ≠ 0 := hc d (by simp)
      rw [hL]
      have hz : leVal ([] : List Nat) = 0 := rfl
      omega
    | cons e es =>
      have hc' : Canon (e :: es) := by
        intro x hx
        exact hc x (by rw [List.getLast?_cons_cons]; exact hx)
      have hv := ih hc' (by simp)
      rw [hL]
      omega

theorem canon_eq_pushCarry : ∀ l : List Nat, IsBytes l → Canon l →
    l = pushCarry (leVal l) := by
  intro l
  induction l with
  | nil =>
    intro _ _
    rw [pushCarry]
    simp [leVal]
  | cons d ds ih =>
    intro hb hc
    cases ds with
    | nil =>
      have hd : d < 256 := hb d (by simp)
      have hd0 : d ≠ 0 := hc d (by simp)
      have hv : leVal [d] = d := by simp [leVal]
      rw [hv, pushCarry, dif_neg hd0, Nat.mod_eq_of_lt hd, Nat.div_eq_of_lt hd,
        (pushCarry_eq_nil 0).mpr rfl]
    | cons e es =>
      have hd : d < 256 := hb d (by simp)
      have hb' : IsBytes (e :: es) := fun x hx => hb x (List.mem_cons_of_mem _ hx)
      have hc' : Canon (e :: es) := fun x hx =>
        hc x (by rw [List.getLast?_cons_cons]; exact hx)
      have hv : leVal (e :: es) ≠ 0 := leVal_ne_zero _ hc' (by simp)
      have ihe := ih hb' hc'
      rw [show leVal (d :: e :: es) = d + 256 * leVal (e :: es) from rfl]
      rw [pushCarry, dif_neg (by omega)]
      congr 1
      · omega
      · rw [show (d + 256 * leVal (e :: es)) / 256 = leVal (e :: es) from by omega]
        exact ihe

/-- One outer-loop iteration computes `result * 58 + carry` in canonical
little-endian base-256 form. -/
theorem mulAddDigits_eq_pushCarry : ∀ (ds : List Nat) (c : Nat), IsBytes ds → Canon ds →
    mulAddDigits ds c = pushCarry (c + 58 * leVal ds) := by
  intro ds
  induction ds with
  | nil =>
    intro c _ _
    simp [mulAddDigits, leVal]
  | cons d ds ih =>
    intro c hb hc
    have hL : leVal (d :: ds) = d + 256 * leVal ds := rfl
    have hne : leVal (d :: ds) ≠ 0 := leVal_ne_zero _ hc (by simp)
    have hN : ¬c + 58 * (d + 256 * leVal ds) = 0 := by
      rw [hL] at hne
      omega
    have hstep : mulAddDigits (d :: ds) c =
        ((c + d * 58) % 256) :: mulAddDigits ds ((c + d * 58) / 256) := rfl
    rw [hstep, hL]
    conv_rhs => rw [pushCarry]
    rw [dif_neg hN]
    cases ds with
    | nil =>
      have hz : leVal ([] : List Nat) = 0 := rfl
      rw [show mulAddDigits [] ((c + d * 58) / 256) =
          pushCarry ((c + d * 58) / 256) from rfl]
      rw [hz]
      congr 1
      · omega
      · congr 1
        omega
    | cons e es =>
      have hb' : IsBytes (e :: es) := fun x hx => hb x (List.mem_cons_of_mem _ hx)
      have hc' : Canon (e :: es) := fun x hx =>
        hc x (by rw [List.getLast?_cons_cons]; exact hx)
      rw [ih ((c + d * 58) / 256) hb' hc']
      congr 1
      · omega
      · congr 1
        omega

/-- The character loop on an all-valid suffix computes the canonical
little-endian digits of the accumulated base-58 value. -/
theorem decodeCore_ok_spec : ∀ (cs : List Char) (acc : List Nat), IsBytes acc → Canon acc →
    (∀ c ∈ cs, c ∈ B58.toList) →
    decodeCore cs acc =
      .ok (pushCarry (cs.foldl (fun v c => v * 58 + (b58Digit c).getD 0) (leVal acc))) := by
  intro cs
  induction cs with
  | nil =>
    intro acc hb hc _
    simp only [decodeCore, List.foldl_nil]
    rw [← canon_eq_pushCarry acc hb hc]
  | cons c cs ih =>
    intro acc hb hc hval
    have hcmem : c ∈ B58.toList := hval c (by simp)
    have hd : b58Digit c = some (B58.toList.indexOf c) := by
      unfold b58Digit
      rw [if_pos hcmem]
    simp only [decodeCore, hd]
    rw [mulAddDigits_eq_pushCarry acc (B58.toList.indexOf c) hb hc]
    rw [ih (pushCarry (B58.toList.indexOf c + 58 * leVal acc)) (pushCarry_bytes _)
      (pushCarry_canon _) (fun x hx => hval x (List.mem_cons_of_mem _ hx))]
    rw [List.foldl_cons, leVal_pushCarry]
    rw [show (b58Digit c).getD 0 = B58.toList.indexOf c from by rw [hd]; rfl]
    rw [show B58.toList.indexOf c + 58 * leVal acc =
      leVal acc * 58 + B58.toList.indexOf c from by omega]

/-- An error from the character loop names an invalid character of the
input. -/
theorem decodeCore_error_spec : ∀ (cs : List Char) (acc : List Nat) (e : String),
    decodeCore cs acc = .error e →
    ∃ c, c ∈ cs ∧ c ∉ B58.toList ∧ e = "invalid base58 character: " ++ c.toString := by
  intro cs
  induction cs with
  | nil =>
    intro acc e h
    cases h
  | cons c cs ih =>
    intro acc e h
    rcases hd : b58Digit c with _ | d <;> simp only [decodeCore, hd] at h
    · injection h with h
      have hinv : c ∉ B58.toList := by
        intro hmem
        unfold b58Digit at hd
        rw [if_pos hmem] at hd
        cases hd
      exact ⟨c, by simp, hinv, h.symm⟩
    · obtain ⟨c', hc1, hc2, hc3⟩ := ih _ _ h
      exact ⟨c', List.mem_cons_of_mem _ hc1, hc2, hc3⟩

/-- An invalid character anywhere in the suffix makes the character loop
fail. -/
theorem decodeCore_error_exists : ∀ (cs : List Char) (acc : List Nat),
    (∃ c ∈ cs, c ∉ B58.toList) → ∃ e, decodeCore cs acc = .error e := by
  intro cs
  induction cs with
  | nil =>
    rintro acc ⟨c, hc, _⟩
    cases hc
  | cons c cs ih =>
    rintro acc ⟨c', hc', hinv⟩
    rcases hd : b58Digit c with _ | d
    · exact ⟨"invalid base58 character: " ++ c.toString, by simp only [decodeCore, hd]⟩
    · have hcv : c ∈ B58.toList := by
        by_contra hmem
        unfold b58Digit at hd
        rw [if_neg hmem] at hd
        cases hd
      rcases List.mem_cons.mp hc' with rfl | hmem
      · exact absurd hcv hinv
      · obtain ⟨e, he⟩ := ih (mulAddDigits acc d) ⟨c', hmem, hinv⟩
        exact ⟨e, by simp only [decodeCore, hd]; exact he⟩

/-- C10: `decodeBase58` throws an error identifying an offending character
exactly when the input has a character outside the 58-character alphabet;
on valid input it returns the big-endian byte sequence of the string's
base-58 integer value prefixed with one zero byte per leading `'1'`, and
the empty string decodes to the empty byte sequence. -/
theorem C10_decodeBase58_correct (s : String) :
    ((∃ e, decodeBase58 s = .error e) ↔ ∃ c ∈ s.toList, c ∉ B58.toList) ∧
    (∀ e, decodeBase58 s = .error e →
      ∃ c, c ∈ s.toList ∧ c ∉ B58.toList ∧
        e = "invalid base58 character: " ++ c.toString) ∧
    ((∀ c ∈ s.toList, c ∈ B58.toList) →
      decodeBase58 s = .ok (List.replicate (countLeadingOnes s.toList) 0 ++
        natBytesBE (b58Value s))) ∧
    decodeBase58 "" = .ok [] := by
  have hok : (∀ c ∈ s.toList, c ∈ B58.toList) →
      decodeBase58 s = .ok (List.replicate (countLeadingOnes s.toList) 0 ++
        natBytesBE (b58Value s)) := by
    intro hval
    unfold decodeBase58
    simp only [decodeCore_ok_spec s.toList [] (fun x hx => absurd hx (List.not_mem_nil x))
      (fun x hx => by cases hx) hval]
    congr 1
    rw [List.reverse_append, List.reverse_replicate]
    rfl
  refine ⟨⟨?_, ?_⟩, ?_, hok, ?_⟩
  · rintro ⟨e, he⟩
    by_contra hall
    push_neg at hall
    rw [hok hall] at he
    cases he
  · rintro ⟨c, hc, hinv⟩
    obtain ⟨e, he⟩ := decodeCore_error_exists s.toList [] ⟨c, hc, hinv⟩
    exact ⟨e, by unfold decodeBase58; rw [he]⟩
  · intro e he
    unfold decodeBase58 at he
    rcases hd : decodeCore s.toList [] with e' | acc <;> simp only [hd] at he
    · injection he with he
      subst he
      exact decodeCore_error_spec _ _ _ hd
    · cases he
  · rfl

/-- Witness for C10: `"1z"` decodes to one leading zero byte followed by the
bytes of its base-58 value. -/
theorem C10_decodeBase58_correct_witness :
    decodeBase58 "1z" = .ok (List.replicate (countLeadingOnes "1z".toList) 0 ++
      natBytesBE (b58Value "1z")) :=
  (C10_decodeBase58_correct "1z").2.2.1 (by decide)

/-- Witness for C7: a missing endpoint is fatal and a minimal environment
yields the defaults. -/
theorem C7_loadConfig_witness :
    (∃ e, loadConfig ⟨none, some "C", none, none⟩ = .error e) ∧
    (⟨"u", "C", 30000, .info⟩ : BotConfig).scanIntervalMs = 30000 :=
  ⟨(C7_loadConfig ⟨none, some "C", none, none⟩).1.mpr (.inl rfl),
   ((C7_loadConfig ⟨some "u", some "C", none, none⟩).2 ⟨"u", "C", 30000, .info⟩
      (by decide)).2.2.1 rfl⟩

end TorchKit
